import Mathlib

/-!
Verification of the widget logic of `napari-particle-tracking`
(`_pixel_classifier_widget.py` and `_tracks_analysis_widget.py`).

Python strings are modelled as `List Char`.  The namespace `PyStr` embeds the
Python `str` operations the widgets use: concatenation, `replace`, `strip`,
`split`, `startswith` and `removeprefix`.  All strings handled by the widgets
use the plain space as their only whitespace character, so `strip`/`split`
are embedded with the space as the separator.
-/

namespace PyStr

theorem length_dropWhile_le' {α : Type} (p : α → Bool) (l : List α) :
    (l.dropWhile p).length ≤ l.length := by
  induction l with
  | nil => simp [List.dropWhile]
  | cons a l ih =>
    rw [List.dropWhile]
    cases p a <;> simp <;> omega

/-- Python `s.startswith(p)` on character lists. -/
def beginsWith : List Char → List Char → Bool
  | [], _ => true
  | _ :: _, [] => false
  | c :: p, d :: s => c == d && beginsWith p s

/-- Python `s.replace(pat, rep)`: replace every leftmost, non-overlapping
occurrence of `pat` by `rep`, scanning left to right.  (`pat` is nonempty in
every use made by the widgets; Python additionally defines the empty-pattern
case, which is irrelevant here.) -/
def replaceAll (pat rep : List Char) : List Char → List Char
  | [] => []
  | c :: cs =>
    if h : pat ≠ [] ∧ beginsWith pat (c :: cs) = true then
      rep ++ replaceAll pat rep ((c :: cs).drop pat.length)
    else
      c :: replaceAll pat rep cs
termination_by s => s.length
decreasing_by
· simp only [List.length_drop, List.length_cons]
  have hp : 0 < pat.length := List.length_pos.mpr h.1
  omega
· simp

/-- Python `s.lstrip()` for space-only whitespace. -/
def ltrim (s : List Char) : List Char := s.dropWhile (· == ' ')

/-- Python `s.rstrip()` for space-only whitespace. -/
def rtrim (s : List Char) : List Char := (ltrim s.reverse).reverse

/-- Python `s.strip()` for space-only whitespace. -/
def trim (s : List Char) : List Char := ltrim (rtrim s)

/-- Python `s.split()` for space-only whitespace: the maximal space-free
words of `s`, in order. -/
def tokens : List Char → List (List Char)
  | [] => []
  | c :: cs =>
    if c == ' ' then tokens cs
    else (c :: cs.takeWhile (fun d => !(d == ' '))) ::
      tokens (cs.dropWhile (fun d => !(d == ' ')))
termination_by s => s.length
decreasing_by
· simp
· have := length_dropWhile_le' (fun d => !(d == ' ')) cs
  simp only [List.length_cons]
  omega

/-- Python `s.removeprefix(p)`. -/
def stripLeading (p s : List Char) : List Char :=
  if beginsWith p s then s.drop p.length else s

/-! Step lemmas for `beginsWith` and `replaceAll`. -/

theorem beginsWith_nil_left (s : List Char) : beginsWith [] s = true := by
  cases s <;> rfl

theorem beginsWith_cons (c d : Char) (p s : List Char) :
    beginsWith (c :: p) (d :: s) = (c == d && beginsWith p s) := rfl

theorem beginsWith_cons_nil (c : Char) (p : List Char) :
    beginsWith (c :: p) [] = false := rfl

theorem beginsWith_append_same (a b c : List Char) :
    beginsWith (a ++ b) (a ++ c) = beginsWith b c := by
  induction a with
  | nil => simp
  | cons x a ih => simpa [beginsWith_cons] using ih

theorem beginsWith_head_ne {c d : Char} (h : c ≠ d) (p s : List Char) :
    beginsWith (c :: p) (d :: s) = false := by
  simp [beginsWith_cons, h]

/-- if a space-free word followed by a space is a prefix of a space-free word
followed by a space-headed (or empty) remainder, the two words coincide. -/
theorem beginsWith_token_eq {t t1 s : List Char}
    (ht : ' ' ∉ t) (ht1 : ' ' ∉ t1) (hs : s = [] ∨ ∃ u, s = ' ' :: u)
    (h : beginsWith (t ++ [' ']) (t1 ++ s) = true) : t = t1 := by
  induction t generalizing t1 with
  | nil =>
    cases t1 with
    | nil => rfl
    | cons d t1' =>
      exfalso
      simp only [List.nil_append, List.cons_append] at h
      rw [beginsWith_cons] at h
      have : ' ' = d := by
        have := (Bool.and_eq_true _ _).mp h |>.1
        exact eq_of_beq this
      exact ht1 (this ▸ List.mem_cons_self d t1')
  | cons c t' ih =>
    cases t1 with
    | nil =>
      exfalso
      rcases hs with rfl | ⟨u, rfl⟩
      · simp [beginsWith_cons_nil] at h
      · simp only [List.nil_append, List.cons_append] at h
        rw [beginsWith_cons] at h
        have : c = ' ' := eq_of_beq ((Bool.and_eq_true _ _).mp h).1
        exact ht (this ▸ List.mem_cons_self c t')
    | cons d t1' =>
      simp only [List.cons_append] at h
      rw [beginsWith_cons] at h
      obtain ⟨h1, h2⟩ := (Bool.and_eq_true _ _).mp h
      have hcd : c = d := eq_of_beq h1
      have ht'' : ' ' ∉ t' := fun hm => ht (List.mem_cons_of_mem _ hm)
      have ht1'' : ' ' ∉ t1' := fun hm => ht1 (List.mem_cons_of_mem _ hm)
      rw [hcd, ih ht'' ht1'' h2]

theorem replaceAll_nil (pat rep : List Char) : replaceAll pat rep [] = [] := by
  simp [replaceAll]

theorem replaceAll_cons_pos {pat : List Char} (rep : List Char) {c : Char}
    {cs : List Char} (h1 : pat ≠ []) (h2 : beginsWith pat (c :: cs) = true) :
    replaceAll pat rep (c :: cs) =
      rep ++ replaceAll pat rep ((c :: cs).drop pat.length) := by
  rw [replaceAll, dif_pos ⟨h1, h2⟩]

theorem replaceAll_cons_neg {pat : List Char} (rep : List Char) {c : Char}
    {cs : List Char} (h : ¬(pat ≠ [] ∧ beginsWith pat (c :: cs) = true)) :
    replaceAll pat rep (c :: cs) = c :: replaceAll pat rep cs := by
  rw [replaceAll, dif_neg h]

/-- scanning a space-free word: a pattern starting with a space matches
nowhere inside it. -/
theorem replaceAll_skip_word {t : List Char} (p rep : List Char) (ht : ' ' ∉ t)
    (s : List Char) :
    replaceAll (' ' :: p) rep (t ++ s) = t ++ replaceAll (' ' :: p) rep s := by
  induction t with
  | nil => simp
  | cons c t' ih =>
    have hc : c ≠ ' ' := fun hh => ht (hh ▸ List.mem_cons_self c t')
    have hne : ' ' ≠ c := fun hh => hc hh.symm
    rw [List.cons_append, replaceAll_cons_neg rep]
    · rw [ih fun hm => ht (List.mem_cons_of_mem _ hm)]
      simp
    · intro hcontra
      rw [beginsWith_head_ne hne] at hcontra
      exact Bool.false_ne_true hcontra.2

theorem replaceAll_space_neg {p : List Char} (rep : List Char) {s : List Char}
    (hb : beginsWith p s = false) :
    replaceAll (' ' :: p) rep (' ' :: s) = ' ' :: replaceAll (' ' :: p) rep s := by
  apply replaceAll_cons_neg
  intro hcontra
  rw [beginsWith_cons] at hcontra
  have := ((Bool.and_eq_true _ _).mp hcontra.2).2
  rw [hb] at this
  exact Bool.false_ne_true this

theorem replaceAll_space_pos {p : List Char} (rep : List Char) {s : List Char}
    (hb : beginsWith p s = true) :
    replaceAll (' ' :: p) rep (' ' :: s) =
      rep ++ replaceAll (' ' :: p) rep (s.drop p.length) := by
  rw [replaceAll_cons_pos rep (by simp) (by rw [beginsWith_cons]; simp [hb])]
  simp

/-- scanning a block of spaces when the pattern tail does not match right
after it: nothing is replaced inside the block. -/
theorem replaceAll_spaces_neg {t : List Char} (rep : List Char) {r : List Char}
    (ht : t ≠ []) (hsp : ' ' ∉ t)
    (hb : beginsWith (t ++ [' ']) r = false) (n : Nat) :
    replaceAll (' ' :: (t ++ [' '])) rep (List.replicate n ' ' ++ r) =
      List.replicate n ' ' ++ replaceAll (' ' :: (t ++ [' '])) rep r := by
  induction n with
  | zero => simp
  | succ m ih =>
    rw [List.replicate_succ, List.cons_append, List.cons_append]
    cases m with
    | zero =>
      simp only [List.replicate, List.nil_append]
      exact replaceAll_space_neg rep hb
    | succ k =>
      rw [replaceAll_space_neg rep, ih]
      obtain ⟨c, t', rfl⟩ : ∃ c t', t = c :: t' := by
        cases t with
        | nil => exact absurd rfl ht
        | cons c t' => exact ⟨c, t', rfl⟩
      have hc : c ≠ ' ' := fun hh => hsp (hh ▸ List.mem_cons_self c t')
      rw [List.replicate_succ, List.cons_append]
      exact beginsWith_head_ne hc _ _

/-- scanning a block of `n ≥ 1` spaces when the pattern tail matches right
after it: the pattern consumes the last space of the block. -/
theorem replaceAll_spaces_pos {t : List Char} (rep : List Char) {r : List Char}
    (ht : t ≠ []) (hsp : ' ' ∉ t)
    (hb : beginsWith (t ++ [' ']) r = true) :
    ∀ n, 1 ≤ n →
      replaceAll (' ' :: (t ++ [' '])) rep (List.replicate n ' ' ++ r) =
        List.replicate (n - 1) ' ' ++ rep ++
          replaceAll (' ' :: (t ++ [' '])) rep (r.drop (t.length + 1)) := by
  intro n
  induction n with
  | zero => omega
  | succ m ih =>
    intro _
    rw [List.replicate_succ, List.cons_append]
    cases m with
    | zero =>
      simp only [List.replicate, List.nil_append, Nat.sub_self]
      rw [replaceAll_space_pos rep hb]
      simp [List.length_append]
    | succ k =>
      rw [replaceAll_space_neg rep, ih (by omega)]
      · simp only [Nat.succ_sub_one]
        rw [List.replicate_succ, List.cons_append]
        simp [List.append_assoc]
      · cases t with
        | nil => exact absurd rfl ht
        | cons c t' =>
          have hc : c ≠ ' ' := fun hh => hsp (hh ▸ List.mem_cons_self c t')
          rw [List.replicate_succ, List.cons_append, List.cons_append]
          exact beginsWith_head_ne hc _ _

/-! `Spaced L s`: the shape of every string reachable by the feature
accumulator — the space-free nonempty words of `L` in order, with at least
one space before, between and after them. -/

inductive Spaced : List (List Char) → List Char → Prop where
  | nil (n : Nat) (hn : 1 ≤ n) : Spaced [] (List.replicate n ' ')
  | cons (n : Nat) (hn : 1 ≤ n) (t : List Char) (ht : t ≠ []) (hsp : ' ' ∉ t)
      {L : List (List Char)} {s : List Char} (h : Spaced L s) :
      Spaced (t :: L) (List.replicate n ' ' ++ t ++ s)

theorem Spaced.head_space {L : List (List Char)} {s : List Char}
    (h : Spaced L s) : ∃ u, s = ' ' :: u := by
  cases h with
  | nil n hn =>
    cases n with
    | zero => omega
    | succ m => exact ⟨List.replicate m ' ', by rw [List.replicate_succ]⟩
  | cons n hn t ht hsp h =>
    rename_i L0 s0
    cases n with
    | zero => omega
    | succ m =>
      refine ⟨List.replicate m ' ' ++ t ++ s0, ?_⟩
      rw [List.replicate_succ]
      simp [List.append_assoc]

theorem Spaced.cons_space {L : List (List Char)} {s : List Char}
    (h : Spaced L s) : Spaced L (' ' :: s) := by
  cases h with
  | nil n hn =>
    have : ' ' :: List.replicate n ' ' = List.replicate (n + 1) ' ' := by
      rw [List.replicate_succ]
    rw [this]
    exact Spaced.nil (n + 1) (by omega)
  | cons n hn t ht hsp h =>
    rename_i L0 s0
    have : ' ' :: (List.replicate n ' ' ++ t ++ s0) =
        List.replicate (n + 1) ' ' ++ t ++ s0 := by
      rw [List.replicate_succ]
      simp [List.append_assoc]
    rw [this]
    exact Spaced.cons (n + 1) (by omega) t ht hsp h

theorem Spaced.prepend_spaces {L : List (List Char)} {s : List Char}
    (h : Spaced L s) (k : Nat) : Spaced L (List.replicate k ' ' ++ s) := by
  induction k with
  | zero => simpa using h
  | succ m ih =>
    rw [List.replicate_succ, List.cons_append]
    exact ih.cons_space

/-- `_add_feature` effect on the shape: appending `" tok "` appends a word. -/
theorem Spaced.append_token {L : List (List Char)} {s : List Char}
    (h : Spaced L s) {t : List Char} (ht : t ≠ []) (hsp : ' ' ∉ t) :
    Spaced (L ++ [t]) (s ++ ' ' :: (t ++ [' '])) := by
  induction h with
  | nil n hn =>
    have : List.replicate n ' ' ++ ' ' :: (t ++ [' ']) =
        List.replicate (n + 1) ' ' ++ t ++ List.replicate 1 ' ' := by
      rw [List.replicate_succ']
      simp [List.append_assoc, List.replicate]
    rw [this]
    exact Spaced.cons (n + 1) (by omega) t ht hsp (Spaced.nil 1 (by omega))
  | cons m hm t1 ht1 hsp1 h ih =>
    rename_i L0 s0
    have : List.replicate m ' ' ++ t1 ++ s0 ++ ' ' :: (t ++ [' ']) =
        List.replicate m ' ' ++ t1 ++ (s0 ++ ' ' :: (t ++ [' '])) := by
      simp [List.append_assoc]
    rw [this]
    exact Spaced.cons m hm t1 ht1 hsp1 ih

/-! `tokens` on `Spaced` strings. -/

theorem takeWhile_append_all {α : Type} {q : α → Bool} {a : List α}
    (ha : ∀ x ∈ a, q x = true) (b : List α) :
    (a ++ b).takeWhile q = a ++ b.takeWhile q := by
  induction a with
  | nil => simp
  | cons x a ih =>
    have hx := ha x (List.mem_cons_self _ _)
    have ih' := ih fun y hy => ha y (List.mem_cons_of_mem _ hy)
    simp [List.takeWhile_cons, hx, ih']

theorem dropWhile_append_all {α : Type} {q : α → Bool} {a : List α}
    (ha : ∀ x ∈ a, q x = true) (b : List α) :
    (a ++ b).dropWhile q = b.dropWhile q := by
  induction a with
  | nil => simp
  | cons x a ih =>
    have hx := ha x (List.mem_cons_self _ _)
    have ih' := ih fun y hy => ha y (List.mem_cons_of_mem _ hy)
    simp [List.dropWhile_cons, hx, ih']

theorem tokens_space (s : List Char) : tokens (' ' :: s) = tokens s := by
  rw [tokens.eq_def]
  simp

theorem tokens_replicate (n : Nat) : tokens (List.replicate n ' ') = [] := by
  induction n with
  | zero =>
    rw [tokens.eq_def]
    simp
  | succ m ih => rw [List.replicate_succ, tokens_space, ih]

theorem tokens_replicate_append (n : Nat) (r : List Char) :
    tokens (List.replicate n ' ' ++ r) = tokens r := by
  induction n with
  | zero => simp
  | succ m ih => rw [List.replicate_succ, List.cons_append, tokens_space, ih]

theorem tokens_word {t : List Char} (ht : t ≠ []) (hsp : ' ' ∉ t)
    {s : List Char} (hs : s = [] ∨ ∃ u, s = ' ' :: u) :
    tokens (t ++ s) = t :: tokens s := by
  obtain ⟨c, t', rfl⟩ : ∃ c t', t = c :: t' := by
    cases t with
    | nil => exact absurd rfl ht
    | cons c t' => exact ⟨c, t', rfl⟩
  have hc : c ≠ ' ' := fun hh => hsp (hh ▸ List.mem_cons_self c t')
  have ht' : ∀ x ∈ t', (!(x == ' ')) = true := by
    intro x hx
    have : x ≠ ' ' := fun hh => hsp (hh ▸ List.mem_cons_of_mem _ hx)
    simp [this]
  have htake : (t' ++ s).takeWhile (fun d => !(d == ' ')) = t' := by
    rw [takeWhile_append_all ht']
    rcases hs with rfl | ⟨u, rfl⟩
    · simp
    · rw [List.takeWhile_cons]
      simp
  have hdrop : (t' ++ s).dropWhile (fun d => !(d == ' ')) = s := by
    rw [dropWhile_append_all ht']
    rcases hs with rfl | ⟨u, rfl⟩
    · simp
    · rw [List.dropWhile_cons]
      simp
  rw [List.cons_append, tokens]
  simp only [hc, beq_iff_eq, if_false]
  rw [htake, hdrop]

theorem tokens_spaced {L : List (List Char)} {s : List Char}
    (h : Spaced L s) : tokens s = L := by
  induction h with
  | nil n hn => exact tokens_replicate n
  | cons n hn t ht hsp h ih =>
    rw [List.append_assoc, tokens_replicate_append]
    rw [tokens_word ht hsp (Or.inr h.head_space), ih]

/-! effect of `replace(" tok ", " ")` on `Spaced` strings. -/

theorem beginsWith_token_nil {t : List Char} (ht : t ≠ []) :
    beginsWith (t ++ [' ']) [] = false := by
  cases t with
  | nil => exact absurd rfl ht
  | cons c t' => rfl

theorem replaceAll_spaces_only {t : List Char} (rep : List Char) (ht : t ≠ [])
    (hsp : ' ' ∉ t) (n : Nat) :
    replaceAll (' ' :: (t ++ [' '])) rep (List.replicate n ' ') =
      List.replicate n ' ' := by
  have h := replaceAll_spaces_neg rep ht hsp (beginsWith_token_nil ht) n
  simpa [replaceAll_nil] using h

theorem beginsWith_of_ne_token {t t1 s0 : List Char} (hsp : ' ' ∉ t)
    (hsp1 : ' ' ∉ t1) (hs : s0 = [] ∨ ∃ u, s0 = ' ' :: u) (hne : t ≠ t1) :
    beginsWith (t ++ [' ']) (t1 ++ s0) = false := by
  cases hx : beginsWith (t ++ [' ']) (t1 ++ s0) with
  | false => rfl
  | true => exact absurd (beginsWith_token_eq hsp hsp1 hs hx) hne

/-- a pattern `" tok "` whose token does not occur in `L` matches nowhere in a
`Spaced L` string. -/
theorem replaceAll_no_token {t : List Char} (ht : t ≠ []) (hsp : ' ' ∉ t)
    {L : List (List Char)} {s : List Char} (h : Spaced L s) (hmem : t ∉ L) :
    replaceAll (' ' :: (t ++ [' '])) [' '] s = s := by
  induction h with
  | nil n hn => exact replaceAll_spaces_only [' '] ht hsp n
  | cons n hn t1 ht1 hsp1 h ih =>
    rename_i L0 s0
    have hne : t ≠ t1 := fun he => hmem (he ▸ List.mem_cons_self t1 L0)
    have hmem0 : t ∉ L0 := fun hm => hmem (List.mem_cons_of_mem _ hm)
    have hb := beginsWith_of_ne_token hsp hsp1 (Or.inr h.head_space) hne
    rw [List.append_assoc, replaceAll_spaces_neg [' '] ht hsp hb n,
      replaceAll_skip_word _ [' '] hsp1, ih hmem0]

/-- variant of `replaceAll_no_token` for the remainder of a `Spaced` string
after its first space has been consumed by a match. -/
theorem replaceAll_no_token_tail {t : List Char} (ht : t ≠ []) (hsp : ' ' ∉ t)
    {L : List (List Char)} {s : List Char} (h : Spaced L s) :
    ∀ u, s = ' ' :: u → t ∉ L →
      replaceAll (' ' :: (t ++ [' '])) [' '] u = u := by
  induction h with
  | nil n hn =>
    intro u hu hmem
    cases n with
    | zero => omega
    | succ m =>
      rw [List.replicate_succ] at hu
      injection hu with h1 h2
      rw [← h2]
      exact replaceAll_spaces_only [' '] ht hsp m
  | cons n hn t1 ht1 hsp1 h ih =>
    rename_i L0 s0
    intro u hu hmem
    cases n with
    | zero => omega
    | succ m =>
      rw [List.replicate_succ, List.cons_append, List.cons_append,
        List.cons.injEq] at hu
      have hne : t ≠ t1 := fun he => hmem (he ▸ List.mem_cons_self t1 L0)
      have hmem0 : t ∉ L0 := fun hm => hmem (List.mem_cons_of_mem _ hm)
      have hb := beginsWith_of_ne_token hsp hsp1 (Or.inr h.head_space) hne
      rw [hu.2.symm, List.append_assoc,
        replaceAll_spaces_neg [' '] ht hsp hb m,
        replaceAll_skip_word _ [' '] hsp1,
        replaceAll_no_token ht hsp h hmem0]

theorem drop_length_cons {α : Type} (l : List α) (a : α) (u : List α) :
    (l ++ a :: u).drop (l.length + 1) = u := by
  induction l with
  | nil => simp
  | cons c l ih => simpa using ih

/-- `replace(" tok ", " ")` on a `Spaced L` string in which `tok` occurs at
most once yields a `Spaced (L.erase tok)` string. -/
theorem replaceAll_erase_token {t : List Char} (ht : t ≠ []) (hsp : ' ' ∉ t)
    {L : List (List Char)} {s : List Char} (h : Spaced L s) :
    L.count t ≤ 1 →
      Spaced (L.erase t) (replaceAll (' ' :: (t ++ [' '])) [' '] s) := by
  induction h with
  | nil n hn =>
    intro _
    rw [replaceAll_spaces_only [' '] ht hsp n]
    exact Spaced.nil n hn
  | cons n hn t1 ht1 hsp1 h ih =>
    rename_i L0 s0
    intro hcount
    by_cases het : t1 = t
    · subst het
      have hnotin : t1 ∉ L0 := by
        rw [List.count_cons_self] at hcount
        have h0 : L0.count t1 = 0 := by omega
        exact (List.count_eq_zero.mp h0)
      obtain ⟨u, hu⟩ := h.head_space
      have hb : beginsWith (t1 ++ [' ']) (t1 ++ s0) = true := by
        rw [beginsWith_append_same, hu, beginsWith_cons]
        simp [beginsWith_nil_left]
      rw [List.append_assoc, replaceAll_spaces_pos [' '] ht1 hsp1 hb n hn]
      have hdrop : (t1 ++ s0).drop (t1.length + 1) = u := by
        rw [hu]
        exact drop_length_cons t1 ' ' u
      rw [hdrop, replaceAll_no_token_tail ht hsp h u hu hnotin]
      rw [List.erase_cons_head]
      have hshape : List.replicate (n - 1) ' ' ++ [' '] ++ u =
          List.replicate (n - 1) ' ' ++ s0 := by
        rw [hu]
        simp
      rw [hshape]
      exact h.prepend_spaces (n - 1)
    · have hne : t ≠ t1 := fun he => het he.symm
      have hcount0 : L0.count t ≤ 1 := by
        rw [List.count_cons] at hcount
        omega
      have hb := beginsWith_of_ne_token hsp hsp1 (Or.inr h.head_space) hne
      rw [List.append_assoc, replaceAll_spaces_neg [' '] ht hsp hb n,
        replaceAll_skip_word _ [' '] hsp1]
      rw [List.erase_cons_tail]
      · rw [← List.append_assoc]
        exact Spaced.cons n hn t1 ht1 hsp1 (ih hcount0)
      · simp [het]

/-! effect of `strip()` on `Spaced` strings. -/

theorem ltrim_nil : ltrim [] = [] := rfl

theorem ltrim_cons_space (s : List Char) : ltrim (' ' :: s) = ltrim s := by
  simp [ltrim, List.dropWhile_cons]

theorem ltrim_cons_of_ne {c : Char} (hc : c ≠ ' ') (s : List Char) :
    ltrim (c :: s) = c :: s := by
  simp [ltrim, List.dropWhile_cons, hc]

theorem ltrim_replicate_append (n : Nat) (b : List Char) :
    ltrim (List.replicate n ' ' ++ b) = ltrim b := by
  induction n with
  | zero => simp
  | succ m ih => rw [List.replicate_succ, List.cons_append, ltrim_cons_space, ih]

theorem ltrim_append_of_ne {a : List Char} {c : Char} (hc : c ≠ ' ')
    (ha : ∃ a', a = c :: a') (b : List Char) : ltrim (a ++ b) = a ++ b := by
  obtain ⟨a', rfl⟩ := ha
  rw [List.cons_append, ltrim_cons_of_ne hc]

/-- `ltrim` distributes over an append whose left part does not become
empty. -/
theorem ltrim_append_of_ltrim_ne {a : List Char} (ha : ltrim a ≠ [])
    (b : List Char) : ltrim (a ++ b) = ltrim a ++ b := by
  induction a with
  | nil => exact absurd ltrim_nil ha
  | cons c a' ih =>
    by_cases hc : c = ' '
    · subst hc
      rw [ltrim_cons_space] at ha
      rw [List.cons_append, ltrim_cons_space, ltrim_cons_space, ih ha]
    · rw [List.cons_append, ltrim_cons_of_ne hc, ltrim_cons_of_ne hc,
        List.cons_append]

theorem rtrim_replicate (n : Nat) : rtrim (List.replicate n ' ') = [] := by
  rw [rtrim, List.reverse_replicate]
  have : ltrim (List.replicate n ' ') = [] := by
    have := ltrim_replicate_append n []
    simpa using this
  rw [this, List.reverse_nil]

theorem rtrim_append_replicate (u : List Char) (n : Nat) :
    rtrim (u ++ List.replicate n ' ') = rtrim u := by
  rw [rtrim, List.reverse_append, List.reverse_replicate,
    ltrim_replicate_append, rtrim]

theorem rtrim_append_word {u t : List Char} (ht : t ≠ []) (hsp : ' ' ∉ t) :
    rtrim (u ++ t) = u ++ t := by
  rw [rtrim, List.reverse_append]
  obtain ⟨c, r', hr⟩ : ∃ c r', t.reverse = c :: r' := by
    cases hr : t.reverse with
    | nil => exact absurd (List.reverse_eq_nil_iff.mp hr) ht
    | cons c r' => exact ⟨c, r', rfl⟩
  have hc : c ≠ ' ' := by
    intro hcsp
    have : c ∈ t.reverse := hr ▸ List.mem_cons_self c r'
    exact hsp (hcsp ▸ List.mem_reverse.mp this)
  rw [ltrim_append_of_ne hc ⟨r', hr⟩, ← List.reverse_append, List.reverse_reverse]

theorem rtrim_append_of_rtrim_ne {u v : List Char} (hv : rtrim v ≠ []) :
    rtrim (u ++ v) = u ++ rtrim v := by
  have hlv : ltrim v.reverse ≠ [] := by
    intro hcontra
    rw [rtrim, hcontra, List.reverse_nil] at hv
    exact hv rfl
  rw [rtrim, List.reverse_append, ltrim_append_of_ltrim_ne hlv,
    List.reverse_append, List.reverse_reverse, rtrim]

/-- `Mid L c`: the trimmed core of a `Spaced L` string — the words of `L` in
order, separated by at least one space, with no leading or trailing space. -/
inductive Mid : List (List Char) → List Char → Prop where
  | nil : Mid [] []
  | single (t : List Char) (ht : t ≠ []) (hsp : ' ' ∉ t) : Mid [t] t
  | cons (t : List Char) (ht : t ≠ []) (hsp : ' ' ∉ t) (n : Nat) (hn : 1 ≤ n)
      {L : List (List Char)} {c : List Char} (hL : L ≠ []) (h : Mid L c) :
      Mid (t :: L) (t ++ List.replicate n ' ' ++ c)

theorem Mid.head_ne_space {L : List (List Char)} {c : List Char} (h : Mid L c) :
    L ≠ [] → ∃ d c', c = d :: c' ∧ d ≠ ' ' := by
  induction h with
  | nil => exact fun hL => absurd rfl hL
  | single t ht hsp =>
    intro _
    obtain ⟨d, c', rfl⟩ : ∃ d c', t = d :: c' := by
      cases t with
      | nil => exact absurd rfl ht
      | cons d c' => exact ⟨d, c', rfl⟩
    exact ⟨d, c', rfl, fun hd => hsp (hd ▸ List.mem_cons_self d c')⟩
  | cons t ht hsp n hn hL0 h0 ih =>
    rename_i L0 c0
    intro _
    obtain ⟨d, t', rfl⟩ : ∃ d t', t = d :: t' := by
      cases t with
      | nil => exact absurd rfl ht
      | cons d t' => exact ⟨d, t', rfl⟩
    refine ⟨d, t' ++ List.replicate n ' ' ++ c0, by simp [List.append_assoc], ?_⟩
    exact fun hd => hsp (hd ▸ List.mem_cons_self d t')

/-- `rtrim` of a `Spaced` string: the final space block disappears, the
leading one stays. -/
theorem rtrim_spaced {L : List (List Char)} {s : List Char} (h : Spaced L s) :
    (L = [] ∧ rtrim s = []) ∨
      (L ≠ [] ∧ ∃ n c, 1 ≤ n ∧ Mid L c ∧
        rtrim s = List.replicate n ' ' ++ c) := by
  induction h with
  | nil n hn => exact Or.inl ⟨rfl, rtrim_replicate n⟩
  | cons n hn t ht hsp h ih =>
    rename_i L0 s0
    rcases ih with ⟨hL0, hr0⟩ | ⟨hL0, m, c, hm, hmid, hr0⟩
    · subst hL0
      obtain ⟨k, hk1, hks⟩ : ∃ k, 1 ≤ k ∧ s0 = List.replicate k ' ' := by
        cases h with
        | nil k hk => exact ⟨k, hk, rfl⟩
      refine Or.inr ⟨by simp, n, t, hn, Mid.single t ht hsp, ?_⟩
      rw [hks, rtrim_append_replicate, rtrim_append_word ht hsp]
    · have hrne : rtrim s0 ≠ [] := by
        rw [hr0]
        cases m with
        | zero => omega
        | succ j => simp [List.replicate_succ]
      refine Or.inr ⟨by simp, n, t ++ List.replicate m ' ' ++ c, hn,
        Mid.cons t ht hsp m hm hL0 hmid, ?_⟩
      rw [rtrim_append_of_rtrim_ne hrne, hr0]
      simp [List.append_assoc]

/-- `strip()` of a `Spaced L` string is its `Mid L` core. -/
theorem trim_spaced {L : List (List Char)} {s : List Char} (h : Spaced L s) :
    Mid L (trim s) := by
  rcases rtrim_spaced h with ⟨hL, hr⟩ | ⟨hL, n, c, hn, hmid, hr⟩
  · subst hL
    rw [trim, hr, ltrim_nil]
    exact Mid.nil
  · rw [trim, hr, ltrim_replicate_append]
    obtain ⟨d, c', hc, hd⟩ := hmid.head_ne_space hL
    rw [hc, ltrim_cons_of_ne hd, ← hc]
    exact hmid

/-- re-wrapping a `Mid L` core in single spaces gives a `Spaced L` string. -/
theorem mid_spaced {L : List (List Char)} {c : List Char} (h : Mid L c) :
    ∀ a b, 1 ≤ a → 1 ≤ b →
      Spaced L (List.replicate a ' ' ++ c ++ List.replicate b ' ') := by
  induction h with
  | nil =>
    intro a b ha hb
    rw [List.append_nil, ← List.replicate_add]
    exact Spaced.nil (a + b) (by omega)
  | single t ht hsp =>
    intro a b ha hb
    exact Spaced.cons a ha t ht hsp (Spaced.nil b hb)
  | cons t ht hsp n hn hL h ih =>
    intro a b ha hb
    rename_i L0 c0
    have : List.replicate a ' ' ++ (t ++ List.replicate n ' ' ++ c0) ++
        List.replicate b ' ' = List.replicate a ' ' ++ t ++
        (List.replicate n ' ' ++ c0 ++ List.replicate b ' ') := by
      simp [List.append_assoc]
    rw [this]
    exact Spaced.cons a ha t ht hsp (ih n b hn hb)

end PyStr

section PyStrTests

example : PyStr.tokens [' ', 'o', 'k', ' '] = [['o', 'k']] := by
  simp [PyStr.tokens, List.takeWhile, List.dropWhile]

example :
    PyStr.replaceAll [' ', 'a', ' '] [' '] [' ', 'x', ' ', ' ', 'a', ' '] =
      [' ', 'x', ' ', ' '] := by
  simp [PyStr.replaceAll, PyStr.beginsWith]

example : PyStr.trim "  x  y  ".toList = "x  y".toList := by decide

example : PyStr.stripLeading "Tracks_".toList "Tracks_demo".toList = "demo".toList := by
  decide

end PyStrTests

/-!
`FeatureSelectionWidget` of `_pixel_classifier_widget.py`.

The widget owns one checkbox per (feature name, range value) pair — built by
`_single_feature_widget`, which emits the token `f"{name}={value}"` on each
state change — plus the "Keep Original" checkbox, whose token is `original`.
Toggling a checkbox runs `_add_feature`/`_remove_feature` on the accumulated
string `_features`.
-/

namespace FeatureSelection

/-- `_available_features`. -/
def availableFeatures : List (List Char) :=
  ["gaussian".toList, "difference_of_gaussian".toList,
    "laplace_of_gaussian".toList]

/-- Python `str(v)` of the `_feature_range` entries
`[0.3, 0.5, 1, 2, 3, 4, 5, 10, 15, 25]`. -/
def featureRangeText : List (List Char) :=
  ["0.3".toList, "0.5".toList, "1".toList, "2".toList, "3".toList,
    "4".toList, "5".toList, "10".toList, "15".toList, "25".toList]

/-- the token `f"{self._feature_name}={checkbox.text()}"` emitted by
`_single_feature_widget._update_features`. -/
def featureToken (name value : List Char) : List Char :=
  name ++ "=".toList ++ value

/-- one entry per checkbox of the widget: the thirty feature checkboxes in
layout order followed by the "Keep Original" checkbox (token `original`). -/
def allTokens : List (List Char) :=
  (availableFeatures.map fun f => featureRangeText.map (featureToken f)).join
    ++ ["original".toList]

/-- `self._default_features` of `FeatureSelectionWidget.__init__`. -/
def defaultFeatures : List Char :=
  (" original gaussian=1 difference_of_gaussian=1 laplace_of_gaussian=1 gaussian=0.5 difference_of_gaussian=0.5 laplace_of_gaussian=0.5 gaussian=0.3 difference_of_gaussian=0.3 laplace_of_gaussian=0.3 ").toList

/-- widget state: the checked flag of every checkbox plus the accumulated
`self._features` string. -/
structure FSState where
  checked : Fin allTokens.length → Bool
  features : List Char

/-- `FeatureSelectionWidget._add_feature`:
`self._features = self._features + " " + feature + " "`. -/
def addFeature (s tok : List Char) : List Char :=
  s ++ " ".toList ++ tok ++ " ".toList

/-- `FeatureSelectionWidget._remove_feature`:
`self._features = " " + (self._features.replace(" " + feature + " ", " ")).strip() + " "`. -/
def removeFeature (s tok : List Char) : List Char :=
  " ".toList ++
    PyStr.trim (PyStr.replaceAll (" ".toList ++ tok ++ " ".toList)
      " ".toList s) ++ " ".toList

/-- the state after `__init__`: every feature checkbox is created unchecked,
"Keep Original" is checked before its signal is connected, and
`self._features = " original "` is assigned directly. -/
def initState : FSState :=
  ⟨fun i => allTokens.get i == "original".toList, " original ".toList⟩

/-- one user toggle of checkbox `i`: the checkbox state flips, then the
`stateChanged` handler reads `isChecked()` and emits `feature_added` or
`feature_removed` (resp. calls `_add_feature`/`_remove_feature` for the
"Keep Original" closure `_update_original`). -/
def toggle (st : FSState) (i : Fin allTokens.length) : FSState :=
  if st.checked i then
    ⟨fun j => if j = i then false else st.checked j,
      removeFeature st.features (allTokens.get i)⟩
  else
    ⟨fun j => if j = i then true else st.checked j,
      addFeature st.features (allTokens.get i)⟩

/-- the widget state reached from construction by a sequence of toggles. -/
def run (evs : List (Fin allTokens.length)) : FSState :=
  evs.foldl toggle initState

/-- `FeatureSelectionWidget.get_features`:
`return self._features if self._features != "" else self._default_features`. -/
def getFeatures (st : FSState) : List Char :=
  if st.features ≠ [] then st.features else defaultFeatures

theorem allTokens_nodup : allTokens.Nodup := by decide

theorem allTokens_ok : ∀ t ∈ allTokens, t ≠ [] ∧ ' ' ∉ t := by decide

/-- the reachability invariant: the feature string is a well-spaced word
list matching exactly the checked checkboxes, without duplicates. -/
def Inv (st : FSState) : Prop :=
  ∃ L, PyStr.Spaced L st.features ∧ L.Nodup ∧
    ∀ w, w ∈ L ↔ ∃ i, st.checked i = true ∧ allTokens.get i = w

theorem inv_init : Inv initState := by
  refine ⟨["original".toList], ?_, by simp, ?_⟩
  · have hshape : " original ".toList =
        List.replicate 1 ' ' ++ "original".toList ++ List.replicate 1 ' ' := by
      decide
    rw [show initState.features = " original ".toList from rfl, hshape]
    exact PyStr.Spaced.cons 1 (by omega) "original".toList (by decide)
      (by decide) (PyStr.Spaced.nil 1 (by omega))
  · intro w
    constructor
    · intro hw
      have hw' : w = "original".toList := by simpa using hw
      refine ⟨⟨30, by decide⟩, ?_, ?_⟩
      · decide
      · rw [hw']
        decide
    · rintro ⟨i, hc, hg⟩
      have hget : allTokens.get i = "original".toList := by
        have := hc
        rw [show initState.checked i = (allTokens.get i == "original".toList)
          from rfl] at this
        exact eq_of_beq this
      have hw : w = "original".toList := by rw [← hg, hget]
      simp [hw]

theorem count_le_one_of_nodup {L : List (List Char)} (h : L.Nodup)
    (t : List Char) : L.count t ≤ 1 := by
  induction L with
  | nil => simp
  | cons a L ih =>
    rw [List.count_cons]
    rcases List.nodup_cons.mp h with ⟨ha, hL⟩
    by_cases he : t = a
    · subst he
      have h0 : L.count t = 0 := List.count_eq_zero.mpr ha
      simp [h0]
    · have he' : a ≠ t := fun hh => he hh.symm
      simp [he, he', ih hL]

theorem inv_toggle {st : FSState} (h : Inv st) (i : Fin allTokens.length) :
    Inv (toggle st i) := by
  obtain ⟨L, hS, hNd, hMem⟩ := h
  obtain ⟨htok, hsp⟩ := allTokens_ok (allTokens.get i) (allTokens.get_mem i i.isLt)
  by_cases hc : st.checked i
  · -- the checkbox was checked: its token is removed
    have hmem : allTokens.get i ∈ L := (hMem _).mpr ⟨i, hc, rfl⟩
    have hcount : L.count (allTokens.get i) ≤ 1 :=
      count_le_one_of_nodup hNd _
    refine ⟨L.erase (allTokens.get i), ?_, hNd.erase _, ?_⟩
    · have hshape : (toggle st i).features =
          removeFeature st.features (allTokens.get i) := by
        simp [toggle, hc]
      rw [hshape]
      have hpat : " ".toList ++ allTokens.get i ++ " ".toList =
          ' ' :: (allTokens.get i ++ [' ']) := by simp
      rw [removeFeature, hpat]
      have hrep := PyStr.replaceAll_erase_token htok hsp hS hcount
      have hmid := PyStr.trim_spaced hrep
      have := PyStr.mid_spaced hmid 1 1 (by omega) (by omega)
      simpa using this
    · intro w
      have hch : (toggle st i).checked =
          fun j => if j = i then false else st.checked j := by
        simp [toggle, hc]
      rw [hNd.mem_erase_iff, hMem w, hch]
      constructor
      · rintro ⟨hne, j, hj, hg⟩
        refine ⟨j, ?_, hg⟩
        have hji : j ≠ i := by
          intro hjeq
          exact hne (by rw [← hg, hjeq])
        simp [hji, hj]
      · rintro ⟨j, hj, hg⟩
        simp only at hj
        by_cases hji : j = i
        · rw [if_pos hji] at hj
          exact absurd hj (by simp)
        · rw [if_neg hji] at hj
          refine ⟨?_, j, hj, hg⟩
          intro hweq
          have : allTokens.get j = allTokens.get i := by rw [hg, hweq]
          exact hji (allTokens_nodup.get_inj_iff.mp this)
  · -- the checkbox was unchecked: its token is appended
    have hnotmem : allTokens.get i ∉ L := by
      intro hmem
      obtain ⟨j, hj, hg⟩ := (hMem _).mp hmem
      have : j = i := allTokens_nodup.get_inj_iff.mp hg
      rw [this] at hj
      exact hc hj
    refine ⟨L ++ [allTokens.get i], ?_, ?_, ?_⟩
    · have hshape : (toggle st i).features =
          addFeature st.features (allTokens.get i) := by
        simp [toggle, hc]
      rw [hshape, addFeature]
      have := hS.append_token htok hsp
      simpa [List.append_assoc] using this
    · rw [List.nodup_append]
      exact ⟨hNd, by simp, by simpa [List.disjoint_singleton] using hnotmem⟩
    · intro w
      have hch : (toggle st i).checked =
          fun j => if j = i then true else st.checked j := by
        simp [toggle, hc]
      rw [hch]
      simp only [List.mem_append, List.mem_singleton, hMem w]
      constructor
      · rintro (⟨j, hj, hg⟩ | hw)
        · refine ⟨j, ?_, hg⟩
          by_cases hji : j = i <;> simp [hji, hj]
        · exact ⟨i, by simp, hw.symm⟩
      · rintro ⟨j, hj, hg⟩
        by_cases hji : j = i
        · right
          rw [← hg, hji]
        · left
          refine ⟨j, ?_, hg⟩
          simpa [hji] using hj

theorem inv_run (evs : List (Fin allTokens.length)) : Inv (run evs) := by
  rw [run]
  have h : ∀ st, Inv st → Inv (evs.foldl toggle st) := by
    induction evs with
    | nil => exact fun st h => h
    | cons e evs ih =>
      intro st h
      exact ih _ (inv_toggle h e)
  exact h _ inv_init

/-- Claim C1: after any sequence of checkbox toggle events on the
`FeatureSelectionWidget` (feature checkboxes and "Keep Original"), the
space-delimited tokens of the accumulated `_features` string are exactly the
tokens of the currently checked checkboxes — `name=value` for a feature
checkbox, `original` for "Keep Original" — with no duplicate tokens. -/
theorem c1_feature_tokens_exact (evs : List (Fin allTokens.length)) :
    (PyStr.tokens (run evs).features).Nodup ∧
      ∀ w, w ∈ PyStr.tokens (run evs).features ↔
        ∃ i, (run evs).checked i = true ∧ allTokens.get i = w := by
  obtain ⟨L, hS, hNd, hMem⟩ := inv_run evs
  rw [PyStr.tokens_spaced hS]
  exact ⟨hNd, hMem⟩

/-- Claim C8 fails on the code: with no toggles since construction,
`get_features` returns `" original "` (set directly by `__init__`), not the
ten-token default string — the default is only reachable from an empty
`_features`, which `__init__` rules out. -/
theorem c8_counterexample :
    getFeatures (run []) ≠ defaultFeatures ∧
      getFeatures (run []) = " original ".toList := by decide

/-- Claim C8 amended: when no checkbox has been toggled since construction,
`get_features` returns the single-token string `" original "`; the `_features`
string is nonempty, so the ten-token default-string branch is not taken. -/
theorem c8_amended_untouched_features :
    getFeatures (run []) = " original ".toList ∧ (run []).features ≠ [] := by
  decide

end FeatureSelection

/-!
`PixelClassifierWidget._train_and_classify` of `_pixel_classifier_widget.py`.

Arrays are modelled shape-indexed: an image stack is a function
`Fin n → Fin h → Fin w → Nat` (`n` slices of `h×w` pixels), matching the
`ndim == 3` stacks the handler reassembles.  The training and prediction of
the external `PixelClassifier` library are out of scope and enter as an
opaque per-slice `predict` function (the code calls
`_classifier.predict(im).reshape(im.shape)`, a slice-to-slice map).
-/

namespace PixelClassifier

/-- one `h×w` image slice. -/
abbrev Mat (h w : Nat) := Fin h → Fin w → Nat

/-- an `n`-slice stack of `h×w` images. -/
abbrev Stack (n h w : Nat) := Fin n → Fin h → Fin w → Nat

/-- an entry of `get_selected_layers()`: a napari layer with `name` and
`data` (`None` modelled as `none`). -/
structure ImageLayer (n h w : Nat) where
  name : List Char
  data : Option (Stack n h w)

/-- the selected Labels (annotation) layer; only its `data is None` check
matters here, its payload type is opaque. -/
structure LabelsLayer (G : Type) where
  data : Option G

/-- the dictionary returned by `get_selected_layers()`:
`selected_layer.get("Image")` and `selected_layer.get("Labels")`. -/
structure SelectedLayers (n h w : Nat) (G : Type) where
  image : Option (ImageLayer n h w)
  labels : Option (LabelsLayer G)

/-- a layer of `self.viewer.layers` (only name and data are relevant). -/
structure ViewerLayer (n h w : Nat) where
  name : List Char
  data : Stack n h w

/-- the napari viewer as seen by the handler: its layer list. -/
structure Viewer (n h w : Nat) where
  layers : List (ViewerLayer n h w)

/-- `np.dstack` of `n` two-dimensional `h×w` slices: the result is indexed
`[y][x][i]` with `result[y][x][i] = slices[i][y][x]`. -/
def dstack {n h w : Nat} (slices : Fin n → Mat h w) :
    Fin h → Fin w → Fin n → Nat :=
  fun y x i => slices i y x

/-- `np.swapaxes(0, 2)`: `result[a][b][c] = A[c][b][a]`. -/
def swapaxes02 {a b c : Nat} (A : Fin a → Fin b → Fin c → Nat) :
    Fin c → Fin b → Fin a → Nat :=
  fun i j k => A k j i

/-- `np.swapaxes(1, 2)`: `result[a][b][c] = A[a][c][b]`. -/
def swapaxes12 {a b c : Nat} (A : Fin a → Fin b → Fin c → Nat) :
    Fin a → Fin c → Fin b → Nat :=
  fun i j k => A i k j

/-- `f"Prediction_{_image_layer.name}"`. -/
def predictionName (imageName : List Char) : List Char :=
  "Prediction_".toList ++ imageName

/-- the in-place `_prediction_layer.data = _prediction` assignment:
the layer(s) carrying `name` get the new data, every other layer is
untouched (napari keeps layer names unique). -/
def setLayerData {n h w : Nat} (layers : List (ViewerLayer n h w))
    (name : List Char) (d : Stack n h w) : List (ViewerLayer n h w) :=
  layers.map fun l => if l.name = name then ⟨l.name, d⟩ else l

/-- `_has_layer`: `layer.name.strip() == name.strip()` over the viewer. -/
def hasLayer {n h w : Nat} (v : Viewer n h w) (name : List Char) : Bool :=
  v.layers.any fun l => PyStr.trim l.name == PyStr.trim name

/-- outcome of `_train_and_classify`:  `silent` is the bare `return` when
`get_selected_layers()` is `None`; `warned` is a `warnings.warn` plus
`return`; `keyError` is the exception `self.viewer.layers[name]` raises when
`_has_layer` matched only up to `strip()`; `classified` is the successful
run.  Every non-exception outcome carries the viewer state after the run. -/
inductive PCResult (n h w : Nat) where
  | silent (v : Viewer n h w)
  | warned (msg : List Char) (v : Viewer n h w)
  | keyError
  | classified (v : Viewer n h w)

/-- `PixelClassifierWidget._train_and_classify`.  Training happens in the
external library and does not touch the viewer; per-slice prediction,
`np.dstack` and the two `swapaxes` calls (the `ndim == 3` branch) produce
the prediction volume; the output layer named `Prediction_<image>` is
reused if present (`viewer.layers[name]`), else created via `add_labels`
with `np.zeros(images.shape)` — and then assigned the prediction. -/
def trainAndClassify {n h w : Nat} {G : Type} (predict : Mat h w → Mat h w)
    (v : Viewer n h w) (sel : Option (SelectedLayers n h w G)) :
    PCResult n h w :=
  match sel with
  | none => .silent v
  | some s =>
    match s.image with
    | none => .warned "Please select/add an Image layer.".toList v
    | some il =>
      match il.data with
      | none => .warned "Image layer is empty.".toList v
      | some images =>
        match s.labels with
        | none => .warned "Please select/add an Annotation layer.".toList v
        | some ll =>
          match ll.data with
          | none => .warned "Annotation layer is empty.".toList v
          | some _groundTruth =>
            let prediction :=
              swapaxes12 (swapaxes02 (dstack fun i => predict (images i)))
            let pname := predictionName il.name
            if hasLayer v pname then
              match v.layers.find? fun l => l.name == pname with
              | none => .keyError
              | some _ => .classified ⟨setLayerData v.layers pname prediction⟩
            else
              .classified ⟨setLayerData
                (v.layers ++ [⟨pname, fun _ _ _ => 0⟩]) pname prediction⟩

/-- Claim C5: whenever the image layer or the annotation layer is missing
from the selection, or its data is `None`, `_train_and_classify` emits a
non-fatal warning and returns before training, prediction or any layer
mutation: the resulting viewer is exactly the input viewer. -/
theorem c5_guards_warn_without_mutation {n h w : Nat} {G : Type}
    (predict : Mat h w → Mat h w) (v : Viewer n h w)
    (s : SelectedLayers n h w G)
    (hguard : s.image = none ∨ (∃ il, s.image = some il ∧ il.data = none) ∨
      s.labels = none ∨ (∃ ll, s.labels = some ll ∧ ll.data = none)) :
    ∃ m, trainAndClassify predict v (some s) = .warned m v := by
  obtain ⟨img, lbl⟩ := s
  rcases himg : img with _ | il
  · exact ⟨_, rfl⟩
  · rcases hdat : il.data with _ | images
    · refine ⟨"Image layer is empty.".toList, ?_⟩
      simp only [trainAndClassify, hdat]
    · rcases hlbl : lbl with _ | ll
      · refine ⟨"Please select/add an Annotation layer.".toList, ?_⟩
        simp only [trainAndClassify, hdat]
      · rcases hldat : ll.data with _ | g
        · refine ⟨"Annotation layer is empty.".toList, ?_⟩
          simp only [trainAndClassify, hdat, hldat]
        · exfalso
          rcases hguard with h1 | ⟨il', h2, h2'⟩ | h3 | ⟨ll', h4, h4'⟩
          · rw [himg] at h1
            exact Option.noConfusion h1
          · rw [himg] at h2
            simp only [Option.some.injEq] at h2
            rw [← h2, hdat] at h2'
            exact Option.noConfusion h2'
          · rw [hlbl] at h3
            exact Option.noConfusion h3
          · rw [hlbl] at h4
            simp only [Option.some.injEq] at h4
            rw [← h4, hldat] at h4'
            exact Option.noConfusion h4'

theorem c5_witness :
    ∃ m, @trainAndClassify 1 1 1 Unit (fun sl => sl) ⟨[]⟩
      (some ⟨none, none⟩) = .warned m ⟨[]⟩ :=
  c5_guards_warn_without_mutation (fun sl => sl) ⟨[]⟩ ⟨none, none⟩ (Or.inl rfl)

/-- Claim C6: a successful `_train_and_classify` run on an image layer named
`N` leaves the viewer with a labels layer named `Prediction_N` whose data is
the per-slice prediction volume — `np.dstack` plus the two `swapaxes` calls
reassemble it so that slice `i` is `predict(images[i])`, matching the input
stack's axis order and shape.  A layer of that exact name is reused and
overwritten in place (the layer names are unchanged); when no layer trim-
matches the name, a new zero-initialised layer is appended and then assigned
the prediction. -/
theorem c6_prediction_layer_upsert {n h w : Nat} {G : Type}
    (predict : Mat h w → Mat h w) (v : Viewer n h w) (iname : List Char)
    (images : Stack n h w) (gt : G)
    (hgood : (∃ l ∈ v.layers, l.name = predictionName iname) ∨
      ∀ l ∈ v.layers, PyStr.trim l.name ≠ PyStr.trim (predictionName iname)) :
    ∃ v', trainAndClassify predict v
        (some ⟨some ⟨iname, some images⟩, some ⟨some gt⟩⟩) = .classified v' ∧
      (∃ l ∈ v'.layers, l.name = predictionName iname ∧
        l.data = fun i y x => predict (images i) y x) ∧
      (∀ l ∈ v.layers, l.name ≠ predictionName iname → l ∈ v'.layers) ∧
      ((∃ l ∈ v.layers, l.name = predictionName iname) →
        v'.layers.map ViewerLayer.name = v.layers.map ViewerLayer.name) ∧
      ((∀ l ∈ v.layers, PyStr.trim l.name ≠ PyStr.trim (predictionName iname)) →
        v'.layers = v.layers ++
          [⟨predictionName iname, fun i y x => predict (images i) y x⟩]) := by
  rcases hgood with ⟨l0, hl0, hl0n⟩ | hall
  · -- a layer of the exact name exists: it is reused and overwritten
    have hhas : hasLayer v (predictionName iname) = true := by
      rw [hasLayer, List.any_eq_true]
      exact ⟨l0, hl0, by rw [hl0n, beq_self_eq_true]⟩
    obtain ⟨fl, hf⟩ : ∃ fl, v.layers.find?
        (fun l => l.name == predictionName iname) = some fl := by
      cases hfq : v.layers.find? (fun l => l.name == predictionName iname) with
      | none =>
        exfalso
        have := List.find?_eq_none.mp hfq l0 hl0
        rw [hl0n, beq_self_eq_true] at this
        exact this rfl
      | some fl => exact ⟨fl, rfl⟩
    refine ⟨⟨setLayerData v.layers (predictionName iname)
      (fun i y x => predict (images i) y x)⟩, ?_, ?_, ?_, ?_, ?_⟩
    · simp only [trainAndClassify, hhas, if_true, hf]
      rfl
    · refine ⟨⟨l0.name, fun i y x => predict (images i) y x⟩, ?_, hl0n, rfl⟩
      have : (⟨l0.name, fun i y x => predict (images i) y x⟩ :
          ViewerLayer n h w) = if l0.name = predictionName iname then
            ⟨l0.name, fun i y x => predict (images i) y x⟩ else l0 := by
        rw [if_pos hl0n]
      rw [this]
      exact List.mem_map_of_mem _ hl0
    · intro l hl hne
      have : l = if l.name = predictionName iname then
          ⟨l.name, fun i y x => predict (images i) y x⟩ else l := by
        rw [if_neg hne]
      rw [this]
      exact List.mem_map_of_mem _ hl
    · intro _
      rw [setLayerData, List.map_map]
      apply List.map_congr_left
      intro l hl
      simp only [Function.comp_apply]
      by_cases he : l.name = predictionName iname
      · rw [if_pos he]
      · rw [if_neg he]
    · intro hallc
      exact absurd (congrArg PyStr.trim hl0n) (hallc l0 hl0)
  · -- no layer trim-matches: a new layer is created and assigned
    have hhas : hasLayer v (predictionName iname) = false := by
      rw [hasLayer]
      rw [List.any_eq_false]
      intro l hl
      simp only [beq_iff_eq]
      exact hall l hl
    have hmap : setLayerData (v.layers ++
        [⟨predictionName iname, fun _ _ _ => 0⟩]) (predictionName iname)
        (fun i y x => predict (images i) y x) =
        v.layers ++ [⟨predictionName iname,
          fun i y x => predict (images i) y x⟩] := by
      rw [setLayerData, List.map_append]
      have h1 : v.layers.map (fun l =>
          if l.name = predictionName iname then
            ⟨l.name, fun i y x => predict (images i) y x⟩ else l) =
          v.layers := by
        have hcong : v.layers.map (fun l =>
            if l.name = predictionName iname then
              ⟨l.name, fun i y x => predict (images i) y x⟩ else l) =
            v.layers.map id := by
          apply List.map_congr_left
          intro l hl
          have hne : l.name ≠ predictionName iname := by
            intro he
            exact hall l hl (by rw [he])
          rw [if_neg hne]
          rfl
        rw [hcong, List.map_id]
      rw [h1]
      simp
    refine ⟨⟨v.layers ++ [⟨predictionName iname,
      fun i y x => predict (images i) y x⟩]⟩, ?_, ?_, ?_, ?_, ?_⟩
    · simp only [trainAndClassify, hhas, Bool.false_eq_true, if_false]
      rw [← hmap]
      rfl
    · exact ⟨⟨predictionName iname, fun i y x => predict (images i) y x⟩,
        by simp, rfl, rfl⟩
    · intro l hl _
      exact List.mem_append_left _ hl
    · intro hex
      obtain ⟨l0, hl0, hl0n⟩ := hex
      exact absurd (congrArg PyStr.trim hl0n) (hall l0 hl0)
    · intro _
      rfl

theorem c6_witness :
    ∃ v', @trainAndClassify 1 1 1 Unit (fun sl => sl) ⟨[]⟩
        (some ⟨some ⟨"img".toList, some fun _ _ _ => 7⟩, some ⟨some ()⟩⟩) =
        .classified v' ∧
      (∃ l ∈ v'.layers, l.name = predictionName "img".toList ∧
        l.data = fun i y x => (fun sl => sl) ((fun _ _ _ => 7) i) y x) ∧
      (∀ l ∈ (⟨[]⟩ : Viewer 1 1 1).layers,
        l.name ≠ predictionName "img".toList → l ∈ v'.layers) ∧
      ((∃ l ∈ (⟨[]⟩ : Viewer 1 1 1).layers,
        l.name = predictionName "img".toList) →
        v'.layers.map ViewerLayer.name =
          (⟨[]⟩ : Viewer 1 1 1).layers.map ViewerLayer.name) ∧
      ((∀ l ∈ (⟨[]⟩ : Viewer 1 1 1).layers,
        PyStr.trim l.name ≠ PyStr.trim (predictionName "img".toList)) →
        v'.layers = (⟨[]⟩ : Viewer 1 1 1).layers ++
          [⟨predictionName "img".toList,
            fun i y x => (fun sl => sl) ((fun _ _ _ => 7) i) y x⟩]) :=
  c6_prediction_layer_upsert (fun sl => sl) ⟨[]⟩ "img".toList
    (fun _ _ _ => 7) () (Or.inr (by simp))

end PixelClassifier

/-!
`TracksAnaysisWidget` of `_tracks_analysis_widget.py`.

Dataframe rows are modelled as `track_id` (ℕ) paired with the remaining
numeric columns (`List ℚ`); the napari layer's `current_tracks` array rows
take the same shape, its first column being the track id.  The per-track α
exponents produced by the external `basic_msd_fit` library routine enter the
classification step as given `(track_id, α)` pairs, with unique ids as
produced by `groupby("track_id").first()`.
-/

namespace TracksAnalysis

/-- a dataframe row: `track_id` plus the remaining numeric columns. -/
abbrev TrackRow := Nat × List ℚ

/-- `current_track_ids = list(set(current_tracks[:, 0]))`. -/
def currentTrackIds (currentTracks : List TrackRow) : List Nat :=
  (currentTracks.map Prod.fst).dedup

/-- `current_tracks_df = tracks_df[tracks_df["track_id"].isin(current_track_ids)]`. -/
def filterTracks (df : List TrackRow) (ids : List Nat) : List TrackRow :=
  df.filter fun r => decide (r.1 ∈ ids)

/-- `np.mean` over exact rationals. -/
def npMean (xs : List ℚ) : ℚ := xs.sum / xs.length

/-- `binsize = 100 if np.mean(track_mean_intensity) >= 1000 else 5`. -/
def intensityBinsize (trackMeanIntensity : List ℚ) : ℚ :=
  if 1000 ≤ npMean trackMeanIntensity then 100 else 5

/-- `current_track_fit_df[current_track_fit_df < 0.4].index`. -/
def confinedTracks (fits : List (Nat × ℚ)) : List Nat :=
  (fits.filter fun p => decide (p.2 < 0.4)).map Prod.fst

/-- `current_track_fit_df[(current_track_fit_df >= 0.4) & (current_track_fit_df <= 1.2)].index`. -/
def diffusiveTracks (fits : List (Nat × ℚ)) : List Nat :=
  (fits.filter fun p => decide (0.4 ≤ p.2 ∧ p.2 ≤ 1.2)).map Prod.fst

/-- `current_track_fit_df[current_track_fit_df > 1.2].index`. -/
def directedTracks (fits : List (Nat × ℚ)) : List Nat :=
  (fits.filter fun p => decide (1.2 < p.2)).map Prod.fst

/-- one `_hist_params` entry (the plotting-only fields — labels, colors,
vspan, info text — are omitted). -/
structure HistParam where
  values : List ℚ
  binsize : ℚ
  title : List Char

/-- the `_hist_params` list built by `_analyze`: track lengths (bin 1),
overall intensity (the shared `binsize`), α fit values (bin 0.1), and the
three per-class intensity lists, all three with the same shared `binsize`
computed once from the overall `track_mean_intensity`. -/
def histParams (trackLengths trackMeanIntensity currentTrackFit
    micConfined micDiffusive micDirected : List ℚ)
    (intensityLabel : List Char) : List HistParam :=
  let binsize := intensityBinsize trackMeanIntensity
  [⟨trackLengths, 1, "Track Length Histogram".toList⟩,
    ⟨trackMeanIntensity, binsize,
      "Track ".toList ++ intensityLabel ++ " Histogram".toList⟩,
    ⟨currentTrackFit, 0.1, "Track MSD Fit".toList⟩,
    ⟨micConfined, binsize,
      "Track ".toList ++ intensityLabel ++ " Confined Histogram".toList⟩,
    ⟨micDiffusive, binsize,
      "Track ".toList ++ intensityLabel ++ " Diffusive Histogram".toList⟩,
    ⟨micDirected, binsize,
      "Track ".toList ++ intensityLabel ++ " Directed Histogram".toList⟩]

/-- the selected Tracks layer as `_download` uses it: its `name` and the
`metadata["original_tracks_df"]` attached at track-creation time. -/
structure TracksLayer where
  name : List Char
  original_tracks_df : List TrackRow

/-- the `_analyze`-produced attributes of the widget; `none` models an
attribute that was never assigned (accessing it raises `AttributeError`). -/
structure TAState where
  tracked_msd : Option (List (Nat × List ℚ))
  tracked_msd_fit : Option (List (Nat × List ℚ))
  filtered_tracks_df : Option (List TrackRow)

/-- the widget state right after `__init__`: none of the result attributes
exist yet. -/
def initTAState : TAState := ⟨none, none, none⟩

/-- outcome of `_download`: `warned` is the missing-Tracks-layer warning,
`cancelled` the falsy `save_path` (dialog dismissed), `attrError` an
`AttributeError` raised after the listed files were already written, and
`ok` the successful run with its four files. -/
inductive DownloadResult where
  | warned
  | cancelled
  | attrError (written : List (List Char))
  | ok (written : List (List Char))

/-- the CSV files a `_download` outcome has written. -/
def writtenFiles : DownloadResult → List (List Char)
  | .warned => []
  | .cancelled => []
  | .attrError wfiles => wfiles
  | .ok wfiles => wfiles

/-- `TracksAnaysisWidget._download`.  The project name is
`_tracks_layer.name.removeprefix("Tracks_")`; each write happens in source
order, each `self.<attr>` access precedes the corresponding write, so a
missing attribute aborts with exactly the earlier files on disk. -/
def download (st : TAState) (tracksLayer : Option TracksLayer)
    (savePath : Option (List Char)) : DownloadResult :=
  match tracksLayer with
  | none => .warned
  | some layer =>
    match savePath with
    | none => .cancelled
    | some _ =>
      let projectName := PyStr.stripLeading "Tracks_".toList layer.name
      let f1 := projectName ++ "_all_tracks.csv".toList
      match st.tracked_msd with
      | none => .attrError [f1]
      | some _ =>
        let f2 := projectName ++ "_msd.csv".toList
        match st.tracked_msd_fit with
        | none => .attrError [f1, f2]
        | some _ =>
          let f3 := projectName ++ "_msd_fit.csv".toList
          match st.filtered_tracks_df with
          | none => .attrError [f1, f2, f3]
          | some _ =>
            .ok [f1, f2, f3, projectName ++ "_filtered_tracks.csv".toList]

/-- Claim C2: for per-track fitted exponents with unique track ids (as
`groupby("track_id").first()` yields), the confined (`α < 0.4`), diffusive
(`0.4 ≤ α ≤ 1.2`) and directed (`α > 1.2`) classes are pairwise disjoint,
cover every track, and contain nothing else. -/
theorem c2_motion_class_partition (fits : List (Nat × ℚ))
    (hnd : (fits.map Prod.fst).Nodup) :
    (∀ p ∈ fits,
      (p.1 ∈ confinedTracks fits ∧ p.1 ∉ diffusiveTracks fits ∧
        p.1 ∉ directedTracks fits) ∨
      (p.1 ∉ confinedTracks fits ∧ p.1 ∈ diffusiveTracks fits ∧
        p.1 ∉ directedTracks fits) ∨
      (p.1 ∉ confinedTracks fits ∧ p.1 ∉ diffusiveTracks fits ∧
        p.1 ∈ directedTracks fits)) ∧
    ∀ tid : Nat, tid ∈ confinedTracks fits ∨ tid ∈ diffusiveTracks fits ∨
      tid ∈ directedTracks fits → tid ∈ fits.map Prod.fst := by
  have hinj : ∀ p ∈ fits, ∀ q ∈ fits, p.1 = q.1 → p = q :=
    fun p hp q hq he => List.inj_on_of_nodup_map hnd hp hq he
  have hconf : ∀ p ∈ fits, (p.1 ∈ confinedTracks fits ↔ p.2 < 0.4) := by
    intro p hp
    constructor
    · intro hmem
      obtain ⟨q, hq, hq'⟩ := List.mem_map.mp hmem
      obtain ⟨hqf, hqa⟩ := List.mem_filter.mp hq
      rw [hinj q hqf p hp hq'] at hqa
      exact of_decide_eq_true hqa
    · intro ha
      exact List.mem_map.mpr ⟨p, List.mem_filter.mpr ⟨hp, decide_eq_true ha⟩, rfl⟩
  have hdiff : ∀ p ∈ fits,
      (p.1 ∈ diffusiveTracks fits ↔ 0.4 ≤ p.2 ∧ p.2 ≤ 1.2) := by
    intro p hp
    constructor
    · intro hmem
      obtain ⟨q, hq, hq'⟩ := List.mem_map.mp hmem
      obtain ⟨hqf, hqa⟩ := List.mem_filter.mp hq
      rw [hinj q hqf p hp hq'] at hqa
      exact of_decide_eq_true hqa
    · intro ha
      exact List.mem_map.mpr ⟨p, List.mem_filter.mpr ⟨hp, decide_eq_true ha⟩, rfl⟩
  have hdir : ∀ p ∈ fits, (p.1 ∈ directedTracks fits ↔ 1.2 < p.2) := by
    intro p hp
    constructor
    · intro hmem
      obtain ⟨q, hq, hq'⟩ := List.mem_map.mp hmem
      obtain ⟨hqf, hqa⟩ := List.mem_filter.mp hq
      rw [hinj q hqf p hp hq'] at hqa
      exact of_decide_eq_true hqa
    · intro ha
      exact List.mem_map.mpr ⟨p, List.mem_filter.mpr ⟨hp, decide_eq_true ha⟩, rfl⟩
  constructor
  · intro p hp
    rcases lt_or_le p.2 0.4 with h1 | h1
    · exact Or.inl ⟨(hconf p hp).mpr h1,
        fun hm => absurd ((hdiff p hp).mp hm).1 (by linarith),
        fun hm => absurd ((hdir p hp).mp hm) (by linarith)⟩
    · rcases le_or_lt p.2 1.2 with h2 | h2
      · exact Or.inr (Or.inl ⟨fun hm => absurd ((hconf p hp).mp hm) (by linarith),
          (hdiff p hp).mpr ⟨h1, h2⟩,
          fun hm => absurd ((hdir p hp).mp hm) (by linarith)⟩)
      · exact Or.inr (Or.inr ⟨fun hm => absurd ((hconf p hp).mp hm) (by linarith),
          fun hm => absurd ((hdiff p hp).mp hm).2 (by linarith),
          (hdir p hp).mpr h2⟩)
  · intro tid htid
    rcases htid with hm | hm | hm <;>
    · obtain ⟨q, hq, hq'⟩ := List.mem_map.mp hm
      exact List.mem_map.mpr ⟨q, (List.mem_filter.mp hq).1, hq'⟩

theorem c2_witness :
    (∀ p ∈ [((1 : Nat), (1/5 : ℚ)), (2, 1), (3, 2)],
      (p.1 ∈ confinedTracks [(1, 1/5), (2, 1), (3, 2)] ∧
        p.1 ∉ diffusiveTracks [(1, 1/5), (2, 1), (3, 2)] ∧
        p.1 ∉ directedTracks [(1, 1/5), (2, 1), (3, 2)]) ∨
      (p.1 ∉ confinedTracks [(1, 1/5), (2, 1), (3, 2)] ∧
        p.1 ∈ diffusiveTracks [(1, 1/5), (2, 1), (3, 2)] ∧
        p.1 ∉ directedTracks [(1, 1/5), (2, 1), (3, 2)]) ∨
      (p.1 ∉ confinedTracks [(1, 1/5), (2, 1), (3, 2)] ∧
        p.1 ∉ diffusiveTracks [(1, 1/5), (2, 1), (3, 2)] ∧
        p.1 ∈ directedTracks [(1, 1/5), (2, 1), (3, 2)])) ∧
    ∀ tid : Nat, tid ∈ confinedTracks [(1, 1/5), (2, 1), (3, 2)] ∨
      tid ∈ diffusiveTracks [(1, 1/5), (2, 1), (3, 2)] ∨
      tid ∈ directedTracks [(1, 1/5), (2, 1), (3, 2)] →
      tid ∈ ([(1, 1/5), (2, 1), (3, 2)] : List (Nat × ℚ)).map Prod.fst :=
  c2_motion_class_partition [(1, 1/5), (2, 1), (3, 2)] (by decide)

/-- Claim C3: for a nonempty collection of per-track mean intensities, the
intensity histogram bin width is 100 when their mean is at least 1000 and 5
when it is below 1000. -/
theorem c3_binsize_threshold (xs : List ℚ) (hx : xs ≠ []) :
    (1000 ≤ npMean xs → intensityBinsize xs = 100) ∧
    (npMean xs < 1000 → intensityBinsize xs = 5) := by
  constructor
  · intro h
    rw [intensityBinsize, if_pos h]
  · intro h
    rw [intensityBinsize, if_neg (by linarith)]

theorem c3_witness :
    intensityBinsize [(1000 : ℚ)] = 100 ∧ intensityBinsize [(999 : ℚ)] = 5 :=
  ⟨(c3_binsize_threshold [1000] (by decide)).1 (by norm_num [npMean]),
    (c3_binsize_threshold [999] (by decide)).2 (by norm_num [npMean])⟩

/-- Claim C7: the filtered dataframe built by `_analyze` holds exactly the
rows of the full dataframe whose `track_id` occurs in the selected Tracks
layer's current data, in their original order, and no others. -/
theorem c7_filtered_rows (df : List TrackRow) (currentTracks : List TrackRow) :
    List.Sublist (filterTracks df (currentTrackIds currentTracks)) df ∧
    ∀ r : TrackRow,
      (filterTracks df (currentTrackIds currentTracks)).count r =
        if r.1 ∈ currentTracks.map Prod.fst then df.count r else 0 := by
  constructor
  · exact List.filter_sublist df
  · intro r
    by_cases hmem : r.1 ∈ currentTracks.map Prod.fst
    · have hid : r.1 ∈ currentTrackIds currentTracks := by
        simp [currentTrackIds, List.mem_dedup, hmem]
      rw [if_pos hmem, filterTracks, List.count_filter (by simp [hid])]
    · have hid : r.1 ∉ currentTrackIds currentTracks := by
        simp [currentTrackIds, List.mem_dedup, hmem]
      rw [if_neg hmem, filterTracks, List.count_eq_zero]
      intro hcontra
      exact hid (of_decide_eq_true (List.mem_filter.mp hcontra).2)

/-- Claim C9: all four intensity histograms (overall, confined, diffusive,
directed) share the single bin width computed once from the overall mean
intensity; the lengths histogram uses 1, the α histogram 0.1, and the
per-class bin widths do not depend on the per-class intensity lists. -/
theorem c9_single_binsize (tl m f c d dr : List ℚ) (lbl : List Char) :
    (histParams tl m f c d dr lbl).map HistParam.binsize =
      [1, intensityBinsize m, 0.1, intensityBinsize m, intensityBinsize m,
        intensityBinsize m] ∧
    ∀ c' d' dr' : List ℚ,
      (histParams tl m f c' d' dr' lbl).map HistParam.binsize =
        (histParams tl m f c d dr lbl).map HistParam.binsize := by
  exact ⟨rfl, fun _ _ _ => rfl⟩

/-- Claim C4 as stated is false: with a Tracks layer selected, a directory
chosen and a completed prior analysis, `_download` writes four CSV files,
not three. -/
theorem c4_counterexample :
    writtenFiles (download ⟨some [], some [], some []⟩
        (some ⟨"Tracks_demo".toList, []⟩) (some "out".toList)) =
      ["demo_all_tracks.csv".toList, "demo_msd.csv".toList,
        "demo_msd_fit.csv".toList, "demo_filtered_tracks.csv".toList] ∧
    (writtenFiles (download ⟨some [], some [], some []⟩
        (some ⟨"Tracks_demo".toList, []⟩) (some "out".toList))).length ≠ 3 := by
  decide

/-- Claim C4 amended: when the download action runs with a Tracks layer
selected, a save directory chosen and the analysis attributes populated, it
writes exactly four CSV files — all-tracks, MSD, MSD-fit and filtered-tracks
— each named with the project prefix obtained from the layer's name by
stripping the leading `Tracks_`. -/
theorem c4_amended_four_csv_files (st : TAState) (layer : TracksLayer)
    (p : List Char) (hm : st.tracked_msd ≠ none)
    (hf : st.tracked_msd_fit ≠ none) (hd : st.filtered_tracks_df ≠ none) :
    download st (some layer) (some p) =
      .ok [PyStr.stripLeading "Tracks_".toList layer.name ++
          "_all_tracks.csv".toList,
        PyStr.stripLeading "Tracks_".toList layer.name ++ "_msd.csv".toList,
        PyStr.stripLeading "Tracks_".toList layer.name ++
          "_msd_fit.csv".toList,
        PyStr.stripLeading "Tracks_".toList layer.name ++
          "_filtered_tracks.csv".toList] ∧
    (writtenFiles (download st (some layer) (some p))).length = 4 := by
  obtain ⟨m, hm'⟩ := Option.ne_none_iff_exists'.mp hm
  obtain ⟨f, hf'⟩ := Option.ne_none_iff_exists'.mp hf
  obtain ⟨d, hd'⟩ := Option.ne_none_iff_exists'.mp hd
  constructor
  · simp only [download, hm', hf', hd']
  · simp only [download, hm', hf', hd', writtenFiles]
    rfl

theorem c4_witness :
    download ⟨some [], some [], some []⟩ (some ⟨"Tracks_p1".toList, []⟩)
        (some "dir".toList) =
      .ok [PyStr.stripLeading "Tracks_".toList "Tracks_p1".toList ++
          "_all_tracks.csv".toList,
        PyStr.stripLeading "Tracks_".toList "Tracks_p1".toList ++
          "_msd.csv".toList,
        PyStr.stripLeading "Tracks_".toList "Tracks_p1".toList ++
          "_msd_fit.csv".toList,
        PyStr.stripLeading "Tracks_".toList "Tracks_p1".toList ++
          "_filtered_tracks.csv".toList] ∧
    (writtenFiles (download ⟨some [], some [], some []⟩
        (some ⟨"Tracks_p1".toList, []⟩) (some "dir".toList))).length = 4 :=
  c4_amended_four_csv_files ⟨some [], some [], some []⟩
    ⟨"Tracks_p1".toList, []⟩ "dir".toList (by simp) (by simp) (by simp)

/-- Claim C10: invoking `_download` with a Tracks layer selected and a save
directory chosen but before `_analyze` has ever completed raises an
`AttributeError` (the first missing attribute, `self.tracked_msd`) instead
of warning or aborting cleanly; no derived CSV file (MSD, MSD-fit,
filtered-tracks) has been written at that point — only the all-tracks file,
which comes from the layer metadata.  Only with all three attributes
populated does `_download` run to completion. -/
theorem c10_download_before_analyze (st : TAState) (layer : TracksLayer)
    (p : List Char) (h1 : st.tracked_msd = none)
    (h2 : st.tracked_msd_fit = none) (h3 : st.filtered_tracks_df = none) :
    download st (some layer) (some p) =
      .attrError [PyStr.stripLeading "Tracks_".toList layer.name ++
        "_all_tracks.csv".toList] ∧
    (PyStr.stripLeading "Tracks_".toList layer.name ++ "_msd.csv".toList) ∉
      writtenFiles (download st (some layer) (some p)) ∧
    (PyStr.stripLeading "Tracks_".toList layer.name ++
      "_msd_fit.csv".toList) ∉
      writtenFiles (download st (some layer) (some p)) ∧
    (PyStr.stripLeading "Tracks_".toList layer.name ++
      "_filtered_tracks.csv".toList) ∉
      writtenFiles (download st (some layer) (some p)) ∧
    ∀ st' : TAState, st'.tracked_msd ≠ none → st'.tracked_msd_fit ≠ none →
      st'.filtered_tracks_df ≠ none →
      ∃ wfiles, download st' (some layer) (some p) = .ok wfiles := by
  have hres : download st (some layer) (some p) =
      .attrError [PyStr.stripLeading "Tracks_".toList layer.name ++
        "_all_tracks.csv".toList] := by
    simp only [download, h1]
  have hne : ∀ suffix : List Char, suffix ≠ "_all_tracks.csv".toList →
      PyStr.stripLeading "Tracks_".toList layer.name ++ suffix ∉
        writtenFiles (download st (some layer) (some p)) := by
    intro suffix hs
    rw [hres]
    intro hmem
    simp only [writtenFiles, List.mem_singleton] at hmem
    exact hs (List.append_cancel_left hmem)
  refine ⟨hres, hne _ (by decide), hne _ (by decide), hne _ (by decide), ?_⟩
  intro st' hm hf hd
  obtain ⟨m, hm'⟩ := Option.ne_none_iff_exists'.mp hm
  obtain ⟨f, hf'⟩ := Option.ne_none_iff_exists'.mp hf
  obtain ⟨d, hd'⟩ := Option.ne_none_iff_exists'.mp hd
  refine ⟨[PyStr.stripLeading "Tracks_".toList layer.name ++
      "_all_tracks.csv".toList,
    PyStr.stripLeading "Tracks_".toList layer.name ++ "_msd.csv".toList,
    PyStr.stripLeading "Tracks_".toList layer.name ++ "_msd_fit.csv".toList,
    PyStr.stripLeading "Tracks_".toList layer.name ++
      "_filtered_tracks.csv".toList], ?_⟩
  simp only [download, hm', hf', hd']

theorem c10_witness :
    download initTAState (some ⟨"Tracks_x".toList, []⟩) (some "dir".toList) =
      .attrError [PyStr.stripLeading "Tracks_".toList "Tracks_x".toList ++
        "_all_tracks.csv".toList] ∧
    (PyStr.stripLeading "Tracks_".toList "Tracks_x".toList ++
      "_msd.csv".toList) ∉
      writtenFiles (download initTAState (some ⟨"Tracks_x".toList, []⟩)
        (some "dir".toList)) ∧
    (PyStr.stripLeading "Tracks_".toList "Tracks_x".toList ++
      "_msd_fit.csv".toList) ∉
      writtenFiles (download initTAState (some ⟨"Tracks_x".toList, []⟩)
        (some "dir".toList)) ∧
    (PyStr.stripLeading "Tracks_".toList "Tracks_x".toList ++
      "_filtered_tracks.csv".toList) ∉
      writtenFiles (download initTAState (some ⟨"Tracks_x".toList, []⟩)
        (some "dir".toList)) ∧
    ∀ st' : TAState, st'.tracked_msd ≠ none → st'.tracked_msd_fit ≠ none →
      st'.filtered_tracks_df ≠ none →
      ∃ wfiles, download st' (some ⟨"Tracks_x".toList, []⟩)
        (some "dir".toList) = .ok wfiles :=
  c10_download_before_analyze initTAState ⟨"Tracks_x".toList, []⟩
    "dir".toList rfl rfl rfl

end TracksAnalysis
